import Mathlib

/-!
Verification of the energy dashboard (`src/app.py`) and of the data
preparation pipeline described in its specification.

The dashboard is a Streamlit app.  All numeric cell values are modelled
as rationals (`ℚ`).  Randomness in `generate_mock_data` is modelled by
passing the drawn values explicitly as inputs (`MockInputs`): each call
of `np.random.*` in the source becomes one field of the input record.
-/

namespace App

/-- The eleven process sectors of the `processes` list in
`generate_mock_data` (src/app.py line 46). -/
inductive Process where
  | chillers | compressor1 | compressor2 | trafo1 | trafo2
  | extraction | supplyAir1 | supplyAir2 | filing | polishing | lpdc
  deriving DecidableEq, Repr

/-- The five regions of the `regions` list (src/app.py line 61). -/
inductive Region where
  | mainland | balearic | canary | ceuta | melilla
  deriving DecidableEq, Repr

/-- The list `processes = ['Chillers', …, 'LPDC']` (src/app.py lines 46-47). -/
def processes : List Process :=
  [.chillers, .compressor1, .compressor2, .trafo1, .trafo2,
   .extraction, .supplyAir1, .supplyAir2, .filing, .polishing, .lpdc]

/-- One row of the historical table `df_hist`: a timestamp (hours since
an arbitrary origin), the eleven process columns, the derived `L1 Site`
column and the per-region financial columns. -/
structure HistRow where
  timestamp : ℤ
  proc : Process → ℚ
  l1Site : ℚ
  amount : Region → ℚ
  passPMD : Region → ℚ
  passAi : Region → ℚ

/-- One row of the forecast table `df_forecast`. -/
structure ForeRow where
  timestamp : ℤ
  predictedEnergy : ℚ
  costSafe : Region → ℚ

/-- The random draws consumed by one execution of `generate_mock_data`,
one field per `np.random.*` call site in src/app.py lines 43-74. -/
structure MockInputs where
  histStart : ℤ
  nHist : ℕ
  procVals : ℕ → Process → ℚ
  regionFactor : Region → ℚ
  nFore : ℕ
  predictedEnergy : ℕ → ℚ
  foreFactor : Region → ℚ

/-- The supports of the uniform draws in `generate_mock_data`:
`np.random.uniform(0.15, 0.25)` for each region's cost factor
(line 63) and `np.random.uniform(0.18, 0.28)` for each region's
forecast cost factor (line 74). -/
def ValidDraws (inp : MockInputs) : Prop :=
  (∀ r : Region, 15/100 ≤ inp.regionFactor r ∧ inp.regionFactor r < 25/100) ∧
  (∀ r : Region, 18/100 ≤ inp.foreFactor r ∧ inp.foreFactor r < 28/100)

/-- One historical row as built in src/app.py lines 49-66:
the process columns hold the drawn values, `L1 Site` is the row sum of
the process columns (line 58), `{r}_Amount = L1 Site * factor_r`
(line 63), `{r}_PassThrough_PMD = Amount * 0.1` (line 65) and
`{r}_PassThrough_Ai = Amount * 0.05` (line 66). -/
def mkHistRow (t : ℤ) (pv : Process → ℚ) (factor : Region → ℚ) : HistRow :=
  { timestamp := t
    proc := pv
    l1Site := (processes.map pv).sum
    amount := fun r => (processes.map pv).sum * factor r
    passPMD := fun r => (processes.map pv).sum * factor r * (1/10)
    passAi := fun r => (processes.map pv).sum * factor r * (5/100) }

/-- One forecast row as built in src/app.py lines 70-74:
`Predicted_Energy` is the drawn value and
`{r}_cost_safe = Predicted_Energy * foreFactor_r` where `foreFactor_r`
is a single scalar drawn once per region (line 74). -/
def mkForeRow (t : ℤ) (pe : ℚ) (factor : Region → ℚ) : ForeRow :=
  { timestamp := t
    predictedEnergy := pe
    costSafe := fun r => pe * factor r }

/-- The generator `generate_mock_data` (src/app.py lines 41-78): builds the historical
table on hourly timestamps and the forecast table starting at the last
historical timestamp (line 69). -/
def generate_mock_data (inp : MockInputs) : List HistRow × List ForeRow :=
  ((List.range inp.nHist).map
      (fun (i : ℕ) => mkHistRow (inp.histStart + (i : ℤ)) (inp.procVals i) inp.regionFactor),
   (List.range inp.nFore).map
      (fun (i : ℕ) => mkForeRow (inp.histStart + ((inp.nHist : ℤ) - 1) + (i : ℤ))
        (inp.predictedEnergy i) inp.foreFactor))

/-- An uploaded spreadsheet, as raw bytes.  The app never reads the
contents (src/app.py line 90 is a comment only). -/
def UploadedFile := List ℕ

/-- The data-selection step of `main` (src/app.py lines 86-95): whether
or not both files are uploaded, the tables come from
`generate_mock_data`. -/
def mainTables (uploadHist uploadFore : Option UploadedFile)
    (inp : MockInputs) : List HistRow × List ForeRow :=
  match uploadHist, uploadFore with
  | some _, some _ => generate_mock_data inp
  | _, _ => generate_mock_data inp

/-- The session cache state of `@st.cache_data` on `generate_mock_data`
(src/app.py line 40): either empty or holding the memoized pair of
tables.  `generate_mock_data` takes no Python arguments, so the cache
has a single slot. -/
def CacheState := Option (List HistRow × List ForeRow)

/-- One invocation of the cached `generate_mock_data`: on a hit the
memoized tables are returned and the generator is skipped; on a miss
the generator runs (consuming fresh random draws `inp`) and the result
is stored.  The Boolean records whether the generator actually ran. -/
def cachedGenerate (inp : MockInputs) (st : CacheState) :
    (List HistRow × List ForeRow) × CacheState × Bool :=
  match st with
  | some t => (t, some t, false)
  | none => (generate_mock_data inp, some (generate_mock_data inp), true)

/-- A session: a sequence of invocations of the cached generator, each
with its own fresh random draws (used only on a miss).  Returns the
table pair observed by each invocation. -/
def sessionResults (st : CacheState) : List MockInputs → List (List HistRow × List ForeRow)
  | [] => []
  | inp :: rest =>
    let r := cachedGenerate inp st
    r.1 :: sessionResults r.2.1 rest

/-- Number of invocations in a session at which the generator actually
ran (cache misses). -/
def sessionMisses (st : CacheState) : List MockInputs → ℕ
  | [] => 0
  | inp :: rest =>
    let r := cachedGenerate inp st
    (if r.2.2 then 1 else 0) + sessionMisses r.2.1 rest

/-- The alert condition of `render_machine` (src/app.py line 148):
`is_alert = value > (avg_val * 1.1)`. -/
def render_machine_is_alert (value avg_val : ℚ) : Bool :=
  decide (avg_val * (11/10) < value)

/-- Column mean as computed by `df_hist.mean()` (src/app.py line 164)
for one numeric column. -/
def colMean (tbl : List HistRow) (col : HistRow → ℚ) : ℚ :=
  (tbl.map col).sum / (tbl.length : ℚ)

/-- The alert state of one SCADA machine card (src/app.py lines
147-188): the machine's latest value (`df_hist.iloc[-1]`, line 115)
against its mean over the full historical table. -/
def scadaAlert (tbl : List HistRow) (h : tbl ≠ []) (col : HistRow → ℚ) : Bool :=
  render_machine_is_alert (col (tbl.getLast h)) (colMean tbl col)

/-! ### Chatbot (src/app.py lines 259-283) -/

/-- A chatbot response, abstracting the four string templates of
src/app.py lines 268-281 to the data they interpolate. -/
inductive ChatResponse where
  | expensive (timestamp : ℤ) (amount : ℚ) (region : Region)
  | topConsumer (p : Process)
  | optimize
  | fallback
  deriving DecidableEq, Repr

/-- Keyword test: Python's `kw in q` on strings is substring
containment. -/
def containsKw (q : List Char) (kw : String) : Bool :=
  decide (kw.toList <:+: q)

/-- Python's `str.lower()` restricted to the ASCII range used by the
keywords. -/
def pyLower (q : List Char) : List Char := q.map Char.toLower

/-- The row returned by
`df_hist.loc[df_hist[f'{region}_Amount'].idxmax()]` (src/app.py line
269): the first row attaining the maximal `{region}_Amount`. -/
def maxAmountRow (region : Region) : HistRow → List HistRow → HistRow
  | r, [] => r
  | r, r' :: rs =>
    let m := maxAmountRow region r' rs
    if r.amount region < m.amount region then m else r

/-- The fixed subset of sectors ranked by the chatbot
(src/app.py line 274): `['Chillers', 'Compressor 1', 'LPDC']`. -/
def chatSectors : List Process := [.chillers, .compressor1, .lpdc]

/-- Total of one sector's column over the historical table
(`df_hist[...].sum()`). -/
def colSum (tbl : List HistRow) (p : Process) : ℚ :=
  (tbl.map (fun r => r.proc p)).sum

/-- The sector named by `proc_sums.sort_values(ascending=False).index[0]`
(src/app.py lines 274-275): the first sector of `chatSectors` attaining
the maximal column total. -/
def topConsumer (tbl : List HistRow) : Process → List Process → Process
  | p, [] => p
  | p, p' :: ps =>
    let m := topConsumer tbl p' ps
    if colSum tbl p < colSum tbl m then m else p

/-- The chatbot dispatch (src/app.py lines 264-283) on a non-empty
query.  `none` models the exception pandas raises when `idxmax` runs on
an empty table. -/
def chatbot (query : List Char) (region : Region) (tbl : List HistRow) :
    Option ChatResponse :=
  let q := pyLower query
  if containsKw q "expensive" || containsKw q "cost" then
    match tbl with
    | [] => none
    | r :: rs =>
      let row := maxAmountRow region r rs
      some (.expensive row.timestamp (row.amount region) region)
  else if containsKw q "process" || containsKw q "consume" then
    some (.topConsumer (topConsumer tbl .chillers [.compressor1, .lpdc]))
  else if containsKw q "optimize" then
    some .optimize
  else
    some .fallback

end App

namespace Pipeline

/-!
The data preparation pipeline of the first dashboard variant.  Its
source file is not under src/ (only the Streamlit mock variant is), so
the definitions below are modelled from the specification, §§4.1-4.3.
-/

/-- Modelled from the spec (§4.1, missing variant's ingestion): a raw
cell of the tabular source, either numeric or text that fails numeric
coercion. -/
inductive RawCell where
  | num (q : ℚ)
  | text
  deriving DecidableEq, Repr

/-- Modelled from the spec (§4.1): per-cell numeric coercion, failures
become "missing" (`none`), not errors. -/
def coerceCell : RawCell → Option ℚ
  | .num q => some q
  | .text => none

/-- Modelled from the spec (§3, §4.1): one raw data row: a timestamp
(minutes since an arbitrary epoch midnight) and one cell per sector. -/
structure RawRow where
  ts : ℤ
  cells : List RawCell
  deriving DecidableEq, Repr

/-- One row of the produced TimeSeriesTable: timestamp and
numeric-or-missing value per sector. -/
structure SpecRow where
  ts : ℤ
  vals : List (Option ℚ)
  deriving DecidableEq, Repr

/-- Coercion of one raw row. -/
def coerceRow (r : RawRow) : SpecRow :=
  { ts := r.ts, vals := r.cells.map coerceCell }

/-- Modelled from the spec (§4.1, missing variant's ingestion): the
first data row holds unit labels and is always discarded before
numeric coercion; the remaining rows are coerced cell-wise. -/
def ingest (rows : List RawRow) : List SpecRow :=
  (rows.drop 1).map coerceRow

/-- Calendar date (day index) of a timestamp in minutes. -/
def dateOf (ts : ℤ) : ℤ := ts / 1440

/-- Modelled from the spec (§4.2, missing variant's date filter): keep
exactly the rows whose timestamp's date lies in the inclusive
`[s, e]` range. -/
def filterRange (s e : ℤ) (tbl : List SpecRow) : List SpecRow :=
  tbl.filter (fun r => decide (s ≤ dateOf r.ts) && decide (dateOf r.ts ≤ e))

/-- Date of the earliest timestamp of a non-empty table
(0 on the empty table). -/
def minDate : List SpecRow → ℤ
  | [] => 0
  | r :: rs => rs.foldl (fun a x => min a (dateOf x.ts)) (dateOf r.ts)

/-- Date of the latest timestamp of a non-empty table
(0 on the empty table). -/
def maxDate : List SpecRow → ℤ
  | [] => 0
  | r :: rs => rs.foldl (fun a x => max a (dateOf x.ts)) (dateOf r.ts)

/-- Value of sector `j` in a row under the summation convention of
§4.3: a missing cell contributes zero to its bucket. -/
def sectorVal (r : SpecRow) (j : ℕ) : ℚ :=
  ((r.vals.getD j none).getD 0)

/-- Calendar-aligned daily bucket start (midnight) of a timestamp in
minutes. -/
def dayBucket (ts : ℤ) : ℤ := ts / 1440 * 1440

/-- Pointwise addition of two equal-length value vectors. -/
def addVals (xs ys : List ℚ) : List ℚ := List.zipWith (· + ·) xs ys

/-- Add one row's selected-sector values into the per-bucket
accumulator: the matching bucket is updated in place, a new bucket is
appended at the end (first-appearance order, as in a group-by). -/
def insertRow : List (ℤ × List ℚ) → ℤ → List ℚ → List (ℤ × List ℚ)
  | [], b, v => [(b, v)]
  | (b', v') :: rest, b, v =>
    if b = b' then (b', addVals v' v) :: rest
    else (b', v') :: insertRow rest b v

/-- Modelled from the spec (§4.3, missing variant's aggregation): group
rows by the calendar-aligned bucket start `bkt ts` and sum each
selected sector's values within each bucket; buckets with no rows do
not appear. -/
def aggregate (bkt : ℤ → ℤ) (sectors : List ℕ) (tbl : List SpecRow) :
    List (ℤ × List ℚ) :=
  tbl.foldl (fun acc r => insertRow acc (bkt r.ts) (sectors.map (sectorVal r))) []

/-- Look up a bucket's value vector in an aggregated table. -/
def lookupB : List (ℤ × List ℚ) → ℤ → Option (List ℚ)
  | [], _ => none
  | (b', v) :: rest, b => if b = b' then some v else lookupB rest b

/-- The rows of a table falling into bucket `b`. -/
def bucketRows (bkt : ℤ → ℤ) (b : ℤ) (tbl : List SpecRow) : List SpecRow :=
  tbl.filter (fun r => decide (bkt r.ts = b))

/-- The raw sum of sector `j`'s values over the rows of bucket `b`. -/
def bucketSum (bkt : ℤ → ℤ) (b : ℤ) (tbl : List SpecRow) (j : ℕ) : ℚ :=
  ((bucketRows bkt b tbl).map (fun r => sectorVal r j)).sum

end Pipeline

/-! ## Theorems -/

/-- A concrete random-draw record for witnesses. -/
def inpEx : App.MockInputs :=
  { histStart := 0
    nHist := 1
    procVals := fun _ _ => 1
    regionFactor := fun _ => 1/5
    nFore := 1
    predictedEnergy := fun _ => 1500
    foreFactor := fun _ => 1/5 }

/-- The single historical row generated from `inpEx`. -/
def exRow : App.HistRow := App.mkHistRow 0 (fun _ => 1) (fun _ => 1/5)

/-- C1: the tables used by the dashboard never depend on the uploaded
file contents: for any two pairs of uploads (present or absent, any
bytes), `main` selects the same tables, namely the output of the
synthetic generator. -/
theorem c1_uploads_no_influence (u1 u2 u1' u2' : Option App.UploadedFile)
    (inp : App.MockInputs) :
    App.mainTables u1 u2 inp = App.mainTables u1' u2' inp ∧
    App.mainTables u1 u2 inp = App.generate_mock_data inp := by
  constructor <;>
    cases u1 <;> cases u2 <;> cases u1' <;> cases u2' <;> rfl

/-- C9: in every generated historical row, the `L1 Site` column equals
the sum of the row's eleven process columns; the embedding is pure, so
no later view can mutate this. -/
theorem c9_l1_site_row_sum (inp : App.MockInputs) (row : App.HistRow)
    (h : row ∈ (App.generate_mock_data inp).1) :
    row.l1Site =
      row.proc .chillers + row.proc .compressor1 + row.proc .compressor2 +
      row.proc .trafo1 + row.proc .trafo2 + row.proc .extraction +
      row.proc .supplyAir1 + row.proc .supplyAir2 + row.proc .filing +
      row.proc .polishing + row.proc .lpdc := by
  simp only [App.generate_mock_data, List.mem_map, List.mem_range] at h
  obtain ⟨i, _, rfl⟩ := h
  simp [App.mkHistRow, App.processes]
  ring

theorem c9_l1_site_row_sum_witness :
    exRow ∈ (App.generate_mock_data inpEx).1 ∧
    exRow.l1Site =
      exRow.proc .chillers + exRow.proc .compressor1 + exRow.proc .compressor2 +
      exRow.proc .trafo1 + exRow.proc .trafo2 + exRow.proc .extraction +
      exRow.proc .supplyAir1 + exRow.proc .supplyAir2 + exRow.proc .filing +
      exRow.proc .polishing + exRow.proc .lpdc := by
  have hm : exRow ∈ (App.generate_mock_data inpEx).1 := by
    simp [App.generate_mock_data, inpEx, exRow]
  exact ⟨hm, c9_l1_site_row_sum inpEx exRow hm⟩

/-- All invocations of a session after the first return the memoized
tables. -/
theorem sessionResults_some (t : List App.HistRow × List App.ForeRow) :
    ∀ inps : List App.MockInputs,
      App.sessionResults (some t) inps = inps.map (fun _ => t) ∧
      App.sessionMisses (some t) inps = 0
  | [] => ⟨rfl, rfl⟩
  | _ :: rest => by
    have ih := sessionResults_some t rest
    simp [App.sessionResults, App.sessionMisses, App.cachedGenerate, ih.1, ih.2]

/-- C7: in a session starting with an empty cache, every invocation of
the cached generator returns the tables computed at the first
invocation — even though each later invocation carries its own fresh
random draws — and the generator actually runs exactly once. -/
theorem c7_session_memoized (inp : App.MockInputs) (rest : List App.MockInputs) :
    App.sessionResults none (inp :: rest) =
      (inp :: rest).map (fun _ => App.generate_mock_data inp) ∧
    App.sessionMisses none (inp :: rest) = 1 := by
  have h := sessionResults_some (App.generate_mock_data inp) rest
  simp [App.sessionResults, App.sessionMisses, App.cachedGenerate, h.1, h.2]

/-- C10: a SCADA machine card raises the alert iff the machine's latest
value strictly exceeds 1.1 times its mean over the full historical
table — the threshold is 10% above the average, not the average
itself. -/
theorem c10_scada_alert (tbl : List App.HistRow) (h : tbl ≠ [])
    (col : App.HistRow → ℚ) :
    App.scadaAlert tbl h col = true ↔
      App.colMean tbl col * (11/10) < col (tbl.getLast h) := by
  simp [App.scadaAlert, App.render_machine_is_alert]

theorem c10_scada_alert_witness :
    App.scadaAlert [exRow] (List.cons_ne_nil exRow []) App.HistRow.l1Site = true ↔
      App.colMean [exRow] App.HistRow.l1Site * (11/10) <
        App.HistRow.l1Site ([exRow].getLast (List.cons_ne_nil exRow [])) :=
  c10_scada_alert [exRow] (List.cons_ne_nil exRow []) App.HistRow.l1Site

/-- C8: the forecast table does not depend on the historical random
draws (two input records agreeing on everything except the historical
process values and region cost factors yield the same forecast table),
and in every forecast row each region's `cost_safe` equals
`Predicted_Energy` times that region's single constant factor, a draw
from [0.18, 0.28]. -/
theorem c8_forecast_random (inp inp' : App.MockInputs)
    (hv : App.ValidDraws inp)
    (hstart : inp.histStart = inp'.histStart) (hn : inp.nHist = inp'.nHist)
    (hf : inp.nFore = inp'.nFore)
    (hpe : inp.predictedEnergy = inp'.predictedEnergy)
    (hff : inp.foreFactor = inp'.foreFactor) :
    (App.generate_mock_data inp).2 = (App.generate_mock_data inp').2 ∧
    ∀ row ∈ (App.generate_mock_data inp).2, ∀ r : App.Region,
      row.costSafe r = row.predictedEnergy * inp.foreFactor r ∧
      18/100 ≤ inp.foreFactor r ∧ inp.foreFactor r ≤ 28/100 := by
  constructor
  · simp [App.generate_mock_data, hstart, hn, hf, hpe, hff]
  · intro row hrow r
    simp only [App.generate_mock_data, List.mem_map, List.mem_range] at hrow
    obtain ⟨i, _, rfl⟩ := hrow
    refine ⟨rfl, (hv.2 r).1, le_of_lt ?_⟩
    exact lt_of_lt_of_le (hv.2 r).2 (by norm_num)

/-- The concrete draws of `inpEx` lie in the uniform supports. -/
theorem inpEx_valid : App.ValidDraws inpEx := by
  refine ⟨fun r => ⟨?_, ?_⟩, fun r => ⟨?_, ?_⟩⟩ <;> norm_num [inpEx]

theorem c8_forecast_random_witness :
    (App.generate_mock_data inpEx).2 =
      (App.generate_mock_data
        { inpEx with procVals := fun _ _ => 999, regionFactor := fun _ => 6/25 }).2 ∧
    ∀ row ∈ (App.generate_mock_data inpEx).2, ∀ r : App.Region,
      row.costSafe r = row.predictedEnergy * inpEx.foreFactor r ∧
      18/100 ≤ inpEx.foreFactor r ∧ inpEx.foreFactor r ≤ 28/100 :=
  c8_forecast_random inpEx
    { inpEx with procVals := fun _ _ => 999, regionFactor := fun _ => 6/25 }
    inpEx_valid rfl rfl rfl rfl rfl

/-- A second historical row, with larger amounts than `exRow`. -/
def exRow2 : App.HistRow := App.mkHistRow 1 (fun _ => 2) (fun _ => 1/5)

/-- The function `maxAmountRow` returns a row of the table. -/
theorem maxAmountRow_mem (region : App.Region) (r : App.HistRow)
    (rs : List App.HistRow) :
    App.maxAmountRow region r rs ∈ r :: rs := by
  induction rs generalizing r with
  | nil => simp [App.maxAmountRow]
  | cons r' rs ih =>
    simp only [App.maxAmountRow]
    split
    · exact List.mem_cons_of_mem r (ih r')
    · exact List.mem_cons_self r _

/-- The row chosen by `maxAmountRow` attains the maximal amount of the table. -/
theorem le_maxAmountRow (region : App.Region) (r : App.HistRow)
    (rs : List App.HistRow) :
    ∀ x ∈ r :: rs,
      x.amount region ≤ (App.maxAmountRow region r rs).amount region := by
  induction rs generalizing r with
  | nil =>
    intro x hx
    rw [List.mem_singleton] at hx
    subst hx
    simp [App.maxAmountRow]
  | cons r' rs ih =>
    intro x hx
    by_cases h : r.amount region < (App.maxAmountRow region r' rs).amount region
    · rw [show App.maxAmountRow region r (r' :: rs) = App.maxAmountRow region r' rs
          from by simp [App.maxAmountRow, h]]
      rcases List.mem_cons.mp hx with rfl | hx'
      · exact le_of_lt h
      · exact ih r' x hx'
    · rw [show App.maxAmountRow region r (r' :: rs) = r
          from by simp [App.maxAmountRow, h]]
      rcases List.mem_cons.mp hx with rfl | hx'
      · exact le_refl _
      · exact le_trans (ih r' x hx') (not_lt.mp h)

/-- C2: on a non-empty historical table, a query whose lowercasing
contains "expensive" or "cost" makes the chatbot report the timestamp
and amount of a row attaining the maximum of the selected region's
`_Amount` column over the whole table. -/
theorem c2_expensive_max (query : List Char) (region : App.Region)
    (r0 : App.HistRow) (rs : List App.HistRow)
    (hq : App.containsKw (App.pyLower query) "expensive" = true ∨
          App.containsKw (App.pyLower query) "cost" = true) :
    ∃ row ∈ r0 :: rs,
      App.chatbot query region (r0 :: rs) =
        some (.expensive row.timestamp (row.amount region) region) ∧
      ∀ x ∈ r0 :: rs, x.amount region ≤ row.amount region := by
  refine ⟨App.maxAmountRow region r0 rs, maxAmountRow_mem region r0 rs, ?_,
    le_maxAmountRow region r0 rs⟩
  have hcond : (App.containsKw (App.pyLower query) "expensive" ||
      App.containsKw (App.pyLower query) "cost") = true := by
    rcases hq with h | h <;> simp [h]
  simp [App.chatbot, hcond]

theorem c2_expensive_max_witness :
    ∃ row ∈ exRow :: [exRow2],
      App.chatbot "How EXPENSIVE?".toList App.Region.mainland (exRow :: [exRow2]) =
        some (.expensive row.timestamp (row.amount App.Region.mainland)
          App.Region.mainland) ∧
      ∀ x ∈ exRow :: [exRow2],
        x.amount App.Region.mainland ≤ row.amount App.Region.mainland :=
  c2_expensive_max "How EXPENSIVE?".toList App.Region.mainland exRow [exRow2]
    (Or.inl (by decide))

/-- The function `topConsumer` returns a sector of the ranked list. -/
theorem topConsumer_mem (tbl : List App.HistRow) (p : App.Process)
    (ps : List App.Process) :
    App.topConsumer tbl p ps ∈ p :: ps := by
  induction ps generalizing p with
  | nil => simp [App.topConsumer]
  | cons p' ps ih =>
    simp only [App.topConsumer]
    split
    · exact List.mem_cons_of_mem p (ih p')
    · exact List.mem_cons_self p _

/-- The sector chosen by `topConsumer` attains the maximal column total of the ranked
list. -/
theorem le_topConsumer (tbl : List App.HistRow) (p : App.Process)
    (ps : List App.Process) :
    ∀ x ∈ p :: ps,
      App.colSum tbl x ≤ App.colSum tbl (App.topConsumer tbl p ps) := by
  induction ps generalizing p with
  | nil =>
    intro x hx
    rw [List.mem_singleton] at hx
    subst hx
    simp [App.topConsumer]
  | cons p' ps ih =>
    intro x hx
    by_cases h : App.colSum tbl p < App.colSum tbl (App.topConsumer tbl p' ps)
    · rw [show App.topConsumer tbl p (p' :: ps) = App.topConsumer tbl p' ps
          from by simp [App.topConsumer, h]]
      rcases List.mem_cons.mp hx with rfl | hx'
      · exact le_of_lt h
      · exact ih p' x hx'
    · rw [show App.topConsumer tbl p (p' :: ps) = p
          from by simp [App.topConsumer, h]]
      rcases List.mem_cons.mp hx with rfl | hx'
      · exact le_refl _
      · exact le_trans (ih p' x hx') (not_lt.mp h)

/-- C3: a query whose lowercasing contains "process" or "consume" but
neither "expensive" nor "cost" makes the chatbot name a sector of the
fixed subset {Chillers, Compressor 1, LPDC} whose column total is
maximal within that subset; no other sector can be named. -/
theorem c3_top_consumer (query : List Char) (region : App.Region)
    (tbl : List App.HistRow)
    (hno1 : App.containsKw (App.pyLower query) "expensive" = false)
    (hno2 : App.containsKw (App.pyLower query) "cost" = false)
    (hyes : App.containsKw (App.pyLower query) "process" = true ∨
            App.containsKw (App.pyLower query) "consume" = true) :
    ∃ p, App.chatbot query region tbl = some (.topConsumer p) ∧
      p ∈ App.chatSectors ∧
      ∀ p' ∈ App.chatSectors, App.colSum tbl p' ≤ App.colSum tbl p := by
  refine ⟨App.topConsumer tbl .chillers [.compressor1, .lpdc], ?_, ?_, ?_⟩
  · have hcond : (App.containsKw (App.pyLower query) "process" ||
        App.containsKw (App.pyLower query) "consume") = true := by
      rcases hyes with h | h <;> simp [h]
    simp [App.chatbot, hno1, hno2, hcond]
  · exact topConsumer_mem tbl .chillers [.compressor1, .lpdc]
  · exact le_topConsumer tbl .chillers [.compressor1, .lpdc]

theorem c3_top_consumer_witness :
    ∃ p, App.chatbot "Which PROCESS consumes most?".toList App.Region.mainland
        [exRow, exRow2] = some (.topConsumer p) ∧
      p ∈ App.chatSectors ∧
      ∀ p' ∈ App.chatSectors,
        App.colSum [exRow, exRow2] p' ≤ App.colSum [exRow, exRow2] p :=
  c3_top_consumer "Which PROCESS consumes most?".toList App.Region.mainland
    [exRow, exRow2] (by decide) (by decide) (Or.inl (by decide))

/-- C6: ingestion always discards the first data row (the unit-label
row) before coercion: the produced table is the coercion of the
remaining rows, and it does not depend on the discarded row at all, so
no value of that row can reach any derived table. -/
theorem c6_unit_row_discarded (r : Pipeline.RawRow)
    (rows : List Pipeline.RawRow) :
    Pipeline.ingest (r :: rows) = rows.map Pipeline.coerceRow ∧
    ∀ r' : Pipeline.RawRow,
      Pipeline.ingest (r' :: rows) = Pipeline.ingest (r :: rows) :=
  ⟨rfl, fun _ => rfl⟩

/-- A left fold of `min` is bounded by its initial value. -/
theorem foldl_min_le_init (l : List ℤ) (a : ℤ) : l.foldl min a ≤ a := by
  induction l generalizing a with
  | nil => exact le_refl a
  | cons x l ih => exact le_trans (ih (min a x)) (min_le_left a x)

/-- A left fold of `min` is bounded by every list element. -/
theorem foldl_min_le_mem (l : List ℤ) (a x : ℤ) (hx : x ∈ l) :
    l.foldl min a ≤ x := by
  induction l generalizing a with
  | nil => cases hx
  | cons y l ih =>
    rcases List.mem_cons.mp hx with rfl | h
    · exact le_trans (foldl_min_le_init l (min a x)) (min_le_right a x)
    · exact ih (min a y) h

/-- A left fold of `max` dominates its initial value. -/
theorem init_le_foldl_max (l : List ℤ) (a : ℤ) : a ≤ l.foldl max a := by
  induction l generalizing a with
  | nil => exact le_refl a
  | cons x l ih => exact le_trans (le_max_left a x) (ih (max a x))

/-- A left fold of `max` dominates every list element. -/
theorem mem_le_foldl_max (l : List ℤ) (a x : ℤ) (hx : x ∈ l) :
    x ≤ l.foldl max a := by
  induction l generalizing a with
  | nil => cases hx
  | cons y l ih =>
    rcases List.mem_cons.mp hx with rfl | h
    · exact le_trans (le_max_right a x) (init_le_foldl_max l (max a x))
    · exact ih (max a y) h

/-- The value `minDate` bounds every row's date from below. -/
theorem minDate_le_row (tbl : List Pipeline.SpecRow) (r : Pipeline.SpecRow)
    (hr : r ∈ tbl) : Pipeline.minDate tbl ≤ Pipeline.dateOf r.ts := by
  cases tbl with
  | nil => cases hr
  | cons r0 rs =>
    rw [show Pipeline.minDate (r0 :: rs) =
        (rs.map (fun x => Pipeline.dateOf x.ts)).foldl min (Pipeline.dateOf r0.ts)
      from (List.foldl_map _ _ _ _).symm]
    rcases List.mem_cons.mp hr with rfl | h
    · exact foldl_min_le_init _ _
    · exact foldl_min_le_mem _ _ _ (List.mem_map_of_mem _ h)

/-- The value `maxDate` bounds every row's date from above. -/
theorem row_le_maxDate (tbl : List Pipeline.SpecRow) (r : Pipeline.SpecRow)
    (hr : r ∈ tbl) : Pipeline.dateOf r.ts ≤ Pipeline.maxDate tbl := by
  cases tbl with
  | nil => cases hr
  | cons r0 rs =>
    rw [show Pipeline.maxDate (r0 :: rs) =
        (rs.map (fun x => Pipeline.dateOf x.ts)).foldl max (Pipeline.dateOf r0.ts)
      from (List.foldl_map _ _ _ _).symm]
    rcases List.mem_cons.mp hr with rfl | h
    · exact init_le_foldl_max _ _
    · exact mem_le_foldl_max _ _ _ (List.mem_map_of_mem _ h)

/-- C5: filtering a non-empty table by the full span of its dates
returns the table unchanged; and for any range, the result is exactly
the subsequence of rows whose timestamp's date lies in the inclusive
range (in particular an empty result is an ordinary value). -/
theorem c5_filter_range (s e : ℤ) (tbl : List Pipeline.SpecRow)
    (_h : tbl ≠ []) :
    Pipeline.filterRange (Pipeline.minDate tbl) (Pipeline.maxDate tbl) tbl = tbl ∧
    List.Sublist (Pipeline.filterRange s e tbl) tbl ∧
    ∀ r, r ∈ Pipeline.filterRange s e tbl ↔
      r ∈ tbl ∧ s ≤ Pipeline.dateOf r.ts ∧ Pipeline.dateOf r.ts ≤ e := by
  refine ⟨?_, List.filter_sublist _, ?_⟩
  · apply List.filter_eq_self.mpr
    intro r hr
    simp only [Bool.and_eq_true, decide_eq_true_eq]
    exact ⟨minDate_le_row tbl r hr, row_le_maxDate tbl r hr⟩
  · intro r
    simp [Pipeline.filterRange, List.mem_filter, and_assoc]

theorem c5_filter_range_witness :
    (Pipeline.filterRange
        (Pipeline.minDate [⟨10, [some 1]⟩, ⟨1500, [some 2]⟩])
        (Pipeline.maxDate [⟨10, [some 1]⟩, ⟨1500, [some 2]⟩])
        [⟨10, [some 1]⟩, ⟨1500, [some 2]⟩] =
      [⟨10, [some 1]⟩, ⟨1500, [some 2]⟩]) ∧
    List.Sublist (Pipeline.filterRange 0 5 [⟨10, [some 1]⟩, ⟨1500, [some 2]⟩])
      [⟨10, [some 1]⟩, ⟨1500, [some 2]⟩] ∧
    ∀ r, r ∈ Pipeline.filterRange 0 5 [⟨10, [some 1]⟩, ⟨1500, [some 2]⟩] ↔
      r ∈ [⟨10, [some 1]⟩, ⟨1500, [some 2]⟩] ∧
      0 ≤ Pipeline.dateOf r.ts ∧ Pipeline.dateOf r.ts ≤ 5 :=
  c5_filter_range 0 5 [⟨10, [some 1]⟩, ⟨1500, [some 2]⟩] (by decide)

/-- One group-by step: fold one row into the per-bucket accumulator. -/
def stepAgg (bkt : ℤ → ℤ) (sectors : List ℕ) (acc : List (ℤ × List ℚ))
    (r : Pipeline.SpecRow) : List (ℤ × List ℚ) :=
  Pipeline.insertRow acc (bkt r.ts) (sectors.map (Pipeline.sectorVal r))

/-- Fold the selected-sector values of a list of rows onto an initial
value vector. -/
def foldVals (sectors : List ℕ) (v : List ℚ)
    (rows : List Pipeline.SpecRow) : List ℚ :=
  rows.foldl (fun w r => Pipeline.addVals w (sectors.map (Pipeline.sectorVal r))) v

/-- The bucket value produced by folding `rows` into a bucket slot that
initially holds `o`. -/
def combineB (sectors : List ℕ) :
    Option (List ℚ) → List Pipeline.SpecRow → Option (List ℚ)
  | some v, rows => some (foldVals sectors v rows)
  | none, [] => none
  | none, r :: rows =>
    some (foldVals sectors (sectors.map (Pipeline.sectorVal r)) rows)

/-- Inserting at key `b` updates the looked-up value at `b`. -/
theorem lookupB_insertRow_self (acc : List (ℤ × List ℚ)) (b : ℤ)
    (v : List ℚ) :
    Pipeline.lookupB (Pipeline.insertRow acc b v) b =
      some ((Pipeline.lookupB acc b).elim v (fun w => Pipeline.addVals w v)) := by
  induction acc with
  | nil => simp [Pipeline.insertRow, Pipeline.lookupB]
  | cons hd rest ih =>
    obtain ⟨b', v'⟩ := hd
    by_cases h : b = b'
    · subst h
      simp [Pipeline.insertRow, Pipeline.lookupB]
    · simp [Pipeline.insertRow, Pipeline.lookupB, h, ih]

/-- Inserting at key `b` does not change lookups at other keys. -/
theorem lookupB_insertRow_ne (acc : List (ℤ × List ℚ)) (b c : ℤ)
    (v : List ℚ) (h : c ≠ b) :
    Pipeline.lookupB (Pipeline.insertRow acc b v) c =
      Pipeline.lookupB acc c := by
  induction acc with
  | nil => simp [Pipeline.insertRow, Pipeline.lookupB, h]
  | cons hd rest ih =>
    obtain ⟨b', v'⟩ := hd
    by_cases hb : b = b'
    · subst hb
      simp [Pipeline.insertRow, Pipeline.lookupB, h]
    · by_cases hc : c = b'
      · subst hc
        simp [Pipeline.insertRow, Pipeline.lookupB, hb]
      · simp [Pipeline.insertRow, Pipeline.lookupB, hb, hc, ih]

/-- Looking up a bucket after folding a table into the accumulator:
the result combines the bucket's prior content with the rows of the
table falling into the bucket. -/
theorem lookupB_foldl (bkt : ℤ → ℤ) (sectors : List ℕ)
    (tbl : List Pipeline.SpecRow) :
    ∀ (acc : List (ℤ × List ℚ)) (b : ℤ),
      Pipeline.lookupB (tbl.foldl (stepAgg bkt sectors) acc) b =
        combineB sectors (Pipeline.lookupB acc b)
          (Pipeline.bucketRows bkt b tbl) := by
  induction tbl with
  | nil =>
    intro acc b
    cases h : Pipeline.lookupB acc b <;>
      simp [Pipeline.bucketRows, combineB, foldVals, h]
  | cons r tbl ih =>
    intro acc b
    by_cases hb : bkt r.ts = b
    · have hbr : Pipeline.bucketRows bkt b (r :: tbl) =
          r :: Pipeline.bucketRows bkt b tbl := by
        simp [Pipeline.bucketRows, hb]
      rw [List.foldl_cons, ih, hbr]
      have hins := lookupB_insertRow_self acc (bkt r.ts)
        (sectors.map (Pipeline.sectorVal r))
      rw [hb] at hins
      rw [show stepAgg bkt sectors acc r =
          Pipeline.insertRow acc (bkt r.ts) (sectors.map (Pipeline.sectorVal r))
        from rfl, hb, hins]
      cases hacc : Pipeline.lookupB acc b <;> simp [combineB, foldVals]
    · have hbr : Pipeline.bucketRows bkt b (r :: tbl) =
          Pipeline.bucketRows bkt b tbl := by
        simp [Pipeline.bucketRows, hb]
      rw [List.foldl_cons, ih, hbr]
      rw [show stepAgg bkt sectors acc r =
          Pipeline.insertRow acc (bkt r.ts) (sectors.map (Pipeline.sectorVal r))
        from rfl]
      rw [lookupB_insertRow_ne acc (bkt r.ts) b _ (fun hc => hb hc.symm)]

/-- Pointwise addition of two maps over the same index list. -/
theorem addVals_map (l : List ℕ) (f g : ℕ → ℚ) :
    Pipeline.addVals (l.map f) (l.map g) = l.map (fun j => f j + g j) := by
  induction l with
  | nil => rfl
  | cons x l ih =>
    rw [List.map_cons, List.map_cons, List.map_cons,
      show Pipeline.addVals (f x :: l.map f) (g x :: l.map g) =
        (f x + g x) :: Pipeline.addVals (l.map f) (l.map g) from rfl, ih]

/-- Folding rows onto an initial vector of the form `sectors.map f`
yields, per sector, the initial value plus the sum of that sector's
values over the rows. -/
theorem foldVals_map (sectors : List ℕ) (rows : List Pipeline.SpecRow) :
    ∀ f : ℕ → ℚ,
      foldVals sectors (sectors.map f) rows =
        sectors.map
          (fun j => f j + (rows.map (fun r => Pipeline.sectorVal r j)).sum) := by
  induction rows with
  | nil =>
    intro f
    simp only [foldVals, List.foldl_nil, List.map_nil, List.sum_nil]
    apply List.map_congr_left
    intro a _
    simp
  | cons r rows ih =>
    intro f
    rw [show foldVals sectors (sectors.map f) (r :: rows) =
        foldVals sectors
          (Pipeline.addVals (sectors.map f)
            (sectors.map (fun j => Pipeline.sectorVal r j))) rows
      from rfl]
    rw [addVals_map, ih]
    apply List.map_congr_left
    intro a _
    rw [List.map_cons, List.sum_cons]
    ring

/-- C4: for every granularity (any calendar-aligned bucket map `bkt`,
daily included), every selected sector and every bucket containing at
least one row, the aggregated table's value for that bucket and sector
equals the sum of the sector's raw values over the rows falling into
the bucket. -/
theorem c4_aggregation_sums (bkt : ℤ → ℤ) (sectors : List ℕ)
    (tbl : List Pipeline.SpecRow) (b : ℤ)
    (hb : ∃ r ∈ tbl, bkt r.ts = b) :
    Pipeline.lookupB (Pipeline.aggregate bkt sectors tbl) b =
      some (sectors.map (Pipeline.bucketSum bkt b tbl)) := by
  obtain ⟨r, hr, hrb⟩ := hb
  have hne : Pipeline.bucketRows bkt b tbl ≠ [] :=
    List.ne_nil_of_mem (List.mem_filter.mpr ⟨hr, by simp [hrb]⟩)
  obtain ⟨r0, rest, hcons⟩ := List.exists_cons_of_ne_nil hne
  rw [show Pipeline.aggregate bkt sectors tbl =
      tbl.foldl (stepAgg bkt sectors) [] from rfl]
  rw [lookupB_foldl bkt sectors tbl [] b]
  rw [show Pipeline.lookupB [] b = none from rfl, hcons]
  show some (foldVals sectors (sectors.map (Pipeline.sectorVal r0)) rest) = _
  rw [foldVals_map]
  congr 1
  apply List.map_congr_left
  intro j _
  simp [Pipeline.bucketSum, hcons]

theorem c4_aggregation_sums_witness :
    Pipeline.lookupB
      (Pipeline.aggregate Pipeline.dayBucket [0, 1]
        [⟨10, [some 3, none]⟩, ⟨70, [some 4, some 5]⟩]) 0 =
      some ([0, 1].map
        (Pipeline.bucketSum Pipeline.dayBucket 0
          [⟨10, [some 3, none]⟩, ⟨70, [some 4, some 5]⟩])) :=
  c4_aggregation_sums Pipeline.dayBucket [0, 1]
    [⟨10, [some 3, none]⟩, ⟨70, [some 4, some 5]⟩] 0 (by decide)
